import Mathlib

/-!
Verification of the borrowed JSON DOM value module (src/value/borrowed.rs):
the value tree type, its typed accessors, the mutation contract, the
event-stream tree builder, static-lifetime promotion and the equality and
round-trip contracts. Rust machine integers are modelled as Int / Nat with
explicit range side conditions; fallible operations return Option / Except.
-/

set_option autoImplicit false

namespace Borrowed

/-- Static scalar leaf kinds (the StaticNode type of the value-trait
collaborator): Null, Bool, signed 64-bit integer, unsigned 64-bit integer,
64-bit float.  The i64 payload is an Int, the u64 payload a Nat; the
64-bit range bounds appear as side conditions where the code checks them.
The f64 payload is modelled by its IEEE-754 bit pattern, uninterpreted
64-bit data: the tree operations never compute with the float value, they
only store, copy and compare it. -/
inductive StaticNode where
  | null
  | bool (b : Bool)
  | i64 (i : Int)
  | u64 (u : Nat)
  | f64 (f : UInt64)

/-- Cow of a str: a text leaf that is either a borrowed view into the input
buffer or an owned buffer.  Both hold the same kind of content here; the
constructor records the ownership regime. -/
inductive Cow where
  | borrowed (s : String)
  | owned (s : String)
deriving DecidableEq

/-- Content of a Cow, the observable text irrespective of ownership. -/
def Cow.content : Cow → String
  | .borrowed s => s
  | .owned s => s

/-- Borrowed JSON DOM Value (enum Value in borrowed.rs).  Object is an
insertion-ordered key to value map, modelled as a pair list in iteration
order (the halfbrown map of the source preserves insertion order per the
spec data model). -/
inductive Value where
  | static (s : StaticNode)
  | string (s : Cow)
  | array (vs : List Value)
  | object (o : List (Cow × Value))

/-- Representation of a JSON object, matching the Object type alias. -/
abbrev Object := List (Cow × Value)

/-- The closed enum of value kinds returned by value_type. -/
inductive ValueType where
  | null
  | bool
  | i64
  | u64
  | f64
  | string
  | array
  | object
deriving DecidableEq

/-- Modelled from the spec: StaticNode.value_type of the value-trait
collaborator maps each scalar leaf to its kind. -/
def StaticNode.value_type : StaticNode → ValueType
  | .null => .null
  | .bool _ => .bool
  | .i64 _ => .i64
  | .u64 _ => .u64
  | .f64 _ => .f64

/-- Embedding of Value::value_type. -/
def Value.value_type : Value → ValueType
  | .static s => s.value_type
  | .string _ => .string
  | .array _ => .array
  | .object _ => .object

/-- Embedding of Value::is_null. -/
def Value.is_null : Value → Bool
  | .static .null => true
  | _ => false

/-- Embedding of Value::as_bool. -/
def Value.as_bool : Value → Option Bool
  | .static (.bool b) => some b
  | _ => none

/-- Embedding of Value::as_i64.  The U64 branch models i64::try_from,
which succeeds exactly when the value is at most the i64 maximum. -/
def Value.as_i64 : Value → Option Int
  | .static (.i64 i) => some i
  | .static (.u64 u) => if u ≤ 2 ^ 63 - 1 then some (Int.ofNat u) else none
  | _ => none

/-- Embedding of Value::as_u64.  The I64 branch models u64::try_from,
which succeeds exactly when the value is non-negative. -/
def Value.as_u64 : Value → Option Nat
  | .static (.i64 i) => if 0 ≤ i then some i.toNat else none
  | .static (.u64 u) => some u
  | _ => none

/-- Embedding of Value::as_f64: succeeds only on an exact F64 leaf. -/
def Value.as_f64 : Value → Option UInt64
  | .static (.f64 f) => some f
  | _ => none

/-- Embedding of Value::cast_f64: additionally converts I64 and U64
leaves with the Rust as-cast to f64.  The two casts to the nearest
double value are platform numeric primitives, kept abstract as the
parameters i64ToF64 and u64ToF64 over the bit-pattern model. -/
def Value.cast_f64 (i64ToF64 : Int → UInt64) (u64ToF64 : Nat → UInt64) :
    Value → Option UInt64
  | .static (.f64 f) => some f
  | .static (.i64 i) => some (i64ToF64 i)
  | .static (.u64 u) => some (u64ToF64 u)
  | _ => none

/-- Embedding of Value::as_str: the content of a String leaf. -/
def Value.as_str : Value → Option String
  | .string s => some s.content
  | _ => none

/-- Embedding of Value::as_array. -/
def Value.as_array : Value → Option (List Value)
  | .array a => some a
  | _ => none

/-- Embedding of Value::as_object. -/
def Value.as_object : Value → Option Object
  | .object m => some m
  | _ => none

/-- Content-based key lookup in the insertion-ordered object map,
modelling HashMap::get with a str borrow of the Cow key. -/
def lookupKey : Object → String → Option Value
  | [], _ => none
  | (k, v) :: rest, q => if k.content == q then some v else lookupKey rest q

/-- Embedding of Value::get. -/
def Value.get (v : Value) (k : String) : Option Value :=
  v.as_object.bind fun o => lookupKey o k

/-- Embedding of Value::get_idx. -/
def Value.get_idx (v : Value) (i : Nat) : Option Value :=
  v.as_array.bind fun a => a.get? i

/-- Shape-mismatch mutation error kinds of the AccessError collaborator. -/
inductive AccessError where
  | NotAnObject
  | NotAnArray
deriving DecidableEq

/-- Whether the object already holds an entry with the given key content. -/
def keyMem (o : Object) (q : String) : Bool :=
  o.any fun p => p.1.content == q

/-- Uniqueness of the key contents of an object, the Object invariant of
the data model. -/
def keysUnique : Object → Bool
  | [] => true
  | (k, _) :: rest => !keyMem rest k.content && keysUnique rest

/-- Modelled from the spec: the insert of the insertion-order-preserving
halfbrown map collaborator.  Inserting an existing key (compared by
content) replaces the prior value in place and returns it; a fresh key is
appended at the end of the iteration order. -/
def Object.insert : Object → Cow → Value → Option Value × Object
  | [], k, v => (none, [(k, v)])
  | (k0, v0) :: rest, k, v =>
    if k0.content == k.content then (some v0, (k0, v) :: rest)
    else
      let r := Object.insert rest k v
      (r.1, (k0, v0) :: r.2)

/-- Modelled from the spec: map remove of the halfbrown collaborator;
removes the entry with the given key content, returning it and keeping
the order of the remaining entries. -/
def Object.remove : Object → String → Option Value × Object
  | [], _ => (none, [])
  | (k0, v0) :: rest, q =>
    if k0.content == q then (some v0, rest)
    else
      let r := Object.remove rest q
      (r.1, (k0, v0) :: r.2)

/-- Modelled from the spec: insert_nocheck used by the tree builder;
duplicate keys overwrite per the Object uniqueness invariant, fresh keys
append in insertion order. -/
def insert_nocheck (o : Object) (k : Cow) (v : Value) : Object :=
  (Object.insert o k v).2

/-- Embedding of MutableValue::as_array_mut for Value. -/
def Value.as_array_mut : Value → Option (List Value)
  | .array a => some a
  | _ => none

/-- Embedding of MutableValue::as_object_mut for Value. -/
def Value.as_object_mut : Value → Option Object
  | .object m => some m
  | _ => none

/-- Modelled from the spec: MutableValue::insert default method; on a
non-Object receiver it fails with NotAnObject, on an Object it performs
the map insert, returning the prior value at that key and the updated
tree. -/
def Value.insert : Value → Cow → Value → Except AccessError (Option Value × Value)
  | .object o, k, x =>
    let r := Object.insert o k x
    .ok (r.1, .object r.2)
  | _, _, _ => .error .NotAnObject

/-- Modelled from the spec: MutableValue::remove default method. -/
def Value.remove : Value → String → Except AccessError (Option Value × Value)
  | .object o, q =>
    let r := Object.remove o q
    .ok (r.1, .object r.2)
  | _, _ => .error .NotAnObject

/-- Modelled from the spec: MutableValue::push default method; appends to
the end of an Array, fails with NotAnArray otherwise. -/
def Value.push : Value → Value → Except AccessError Value
  | .array a, x => .ok (.array (a ++ [x]))
  | _, _ => .error .NotAnArray

/-- Modelled from the spec: MutableValue::pop default method; removes and
returns the last Array element, with an absent result on an empty Array,
and fails with NotAnArray on every other variant. -/
def Value.pop : Value → Except AccessError (Option Value × Value)
  | .array a => .ok (a.getLast?, .array a.dropLast)
  | _ => .error .NotAnArray

/-- The prior value returned by the map insert is exactly the value the
content-based lookup finds for that key. -/
theorem Object.insert_fst_eq_lookupKey (o : Object) (k : Cow) (v : Value) :
    (Object.insert o k v).1 = lookupKey o k.content := by
  induction o with
  | nil => rfl
  | cons p rest ih =>
    obtain ⟨k0, v0⟩ := p
    by_cases h : k0.content == k.content
    · simp [Object.insert, lookupKey, h]
    · simp [Object.insert, lookupKey, h, ih]

/-- Unfolding equation of keyMem on a cons cell. -/
theorem keyMem_cons (k0 : Cow) (v0 : Value) (rest : Object) (q : String) :
    keyMem ((k0, v0) :: rest) q = ((k0.content == q) || keyMem rest q) := by
  simp [keyMem]

/-- Key membership after a map insert: exactly the old keys plus the
inserted key. -/
theorem keyMem_insert (o : Object) (k : Cow) (v : Value) (q : String) :
    keyMem (Object.insert o k v).2 q = (keyMem o q || (k.content == q)) := by
  induction o with
  | nil => simp [Object.insert, keyMem]
  | cons p rest ih =>
    obtain ⟨k0, v0⟩ := p
    cases hk : (k0.content == k.content) with
    | true =>
      have hkc : k0.content = k.content := beq_iff_eq.mp hk
      simp only [Object.insert, hk, if_true, keyMem_cons, hkc]
      cases hb : (k.content == q) <;> simp [keyMem_cons, hkc, hb]
    | false =>
      simp only [Object.insert, hk, Bool.false_eq_true, if_false, keyMem_cons, ih]
      rw [Bool.or_assoc]

/-- Map insert preserves the key uniqueness invariant. -/
theorem keysUnique_insert (o : Object) (k : Cow) (v : Value)
    (h : keysUnique o = true) : keysUnique (Object.insert o k v).2 = true := by
  induction o with
  | nil => simp [Object.insert, keysUnique, keyMem]
  | cons p rest ih =>
    obtain ⟨k0, v0⟩ := p
    simp only [keysUnique, Bool.and_eq_true, Bool.not_eq_true'] at h
    cases hk : (k0.content == k.content) with
    | true =>
      simp only [Object.insert, hk, if_true]
      simp only [keysUnique, Bool.and_eq_true, Bool.not_eq_true']
      exact h
    | false =>
      simp only [Object.insert, hk, Bool.false_eq_true, if_false]
      simp only [keysUnique, Bool.and_eq_true, Bool.not_eq_true']
      refine ⟨?_, ih h.2⟩
      rw [keyMem_insert, h.1]
      simp only [Bool.false_or]
      exact beq_eq_false_iff_ne.mpr
        fun hc => (beq_eq_false_iff_ne.mp hk) hc.symm

/-- A fresh key makes insert_nocheck a plain append at the end of the
iteration order. -/
theorem insert_nocheck_fresh (o : Object) (k : Cow) (v : Value)
    (h : keyMem o k.content = false) : insert_nocheck o k v = o ++ [(k, v)] := by
  induction o with
  | nil => rfl
  | cons p rest ih =>
    obtain ⟨k0, v0⟩ := p
    rw [keyMem_cons, Bool.or_eq_false_iff] at h
    simp only [insert_nocheck, Object.insert] at *
    rw [if_neg ?_]
    · simp only [List.cons_append, List.cons.injEq, true_and]
      exact ih h.2
    · intro hc
      exact (beq_eq_false_iff_ne.mp h.1) (beq_iff_eq.mp hc)

/-- C5: insert and remove on a non-Object fail with NotAnObject, push and
pop on a non-Array fail with NotAnArray, pop on an empty Array succeeds
with an absent result, and insert on an Object returns the previous value
at that key. -/
theorem mutation_access_error_contract :
    (∀ (v : Value) (k : Cow) (x : Value), v.as_object = none →
      v.insert k x = .error .NotAnObject) ∧
    (∀ (v : Value) (q : String), v.as_object = none →
      v.remove q = .error .NotAnObject) ∧
    (∀ (v x : Value), v.as_array = none → v.push x = .error .NotAnArray) ∧
    (∀ v : Value, v.as_array = none → v.pop = .error .NotAnArray) ∧
    Value.pop (.array []) = .ok (none, .array []) ∧
    (∀ (o : Object) (k : Cow) (x : Value),
      Value.insert (.object o) k x =
        .ok (lookupKey o k.content, .object (insert_nocheck o k x))) := by
  refine ⟨fun v k x h => ?_, fun v q h => ?_, fun v x h => ?_,
      fun v h => ?_, rfl, fun o k x => ?_⟩
  · cases v <;> simp_all [Value.as_object, Value.insert]
  · cases v <;> simp_all [Value.as_object, Value.remove]
  · cases v <;> simp_all [Value.as_array, Value.push]
  · cases v <;> simp_all [Value.as_array, Value.pop]
  · simp [Value.insert, insert_nocheck, Object.insert_fst_eq_lookupKey]

/-- Closed witness for the mutation error contract, following the
object_access and array_access unit tests. -/
theorem mutation_access_error_contract_witness :
    Value.insert (.static .null) (.borrowed "key") (.static (.i64 1)) =
      .error .NotAnObject ∧
    Value.remove (.static .null) "key" = .error .NotAnObject ∧
    Value.push (.static .null) (.static (.i64 1)) = .error .NotAnArray ∧
    Value.pop (.static .null) = .error .NotAnArray ∧
    Value.insert (.object [(.borrowed "key", .static (.i64 1))])
        (.borrowed "key") (.static (.i64 2)) =
      .ok (some (.static (.i64 1)),
        .object [(.borrowed "key", .static (.i64 2))]) := by
  refine ⟨mutation_access_error_contract.1 (.static .null) _ _ rfl,
    mutation_access_error_contract.2.1 (.static .null) _ rfl,
    mutation_access_error_contract.2.2.1 (.static .null) _ rfl,
    mutation_access_error_contract.2.2.2.1 (.static .null) rfl, ?_⟩
  rw [mutation_access_error_contract.2.2.2.2.2]
  rfl

/-- Parse events produced by the tokenizer collaborator (the Node enum at
the interface of spec section 6): static leaf, string leaf, array open
with declared count, object open with declared count. -/
inductive Node where
  | static (s : StaticNode)
  | string (s : String)
  | array (len : Nat)
  | object (len : Nat)

/-- Whether an event is a String event (the only legal key event). -/
def Node.isString : Node → Bool
  | .string _ => true
  | _ => false

/-- Loop body of BorrowDeserializer::parse_array, abstracted over the
recursive parse call for the next nesting level: fills the n preallocated
slots in event order with the next n parsed values. -/
def parse_array_go (p : List Node → Option (Value × List Node)) :
    Nat → List Node → Option (List Value × List Node)
  | 0, rest => some ([], rest)
  | n + 1, rest =>
    match p rest with
    | none => none
    | some (v, rest1) =>
      match parse_array_go p n rest1 with
      | none => none
      | some (vs, rest2) => some (v :: vs, rest2)

/-- Loop body of BorrowDeserializer::parse_map, abstracted over the
recursive parse call: reads n key and value event pairs, inserting each
with insert_nocheck; a key event that is not a String event hits the
unreachable panic, modelled as the absent result; running out of events
is likewise absent. -/
def parse_map_go (p : List Node → Option (Value × List Node)) :
    Nat → Object → List Node → Option (Object × List Node)
  | 0, acc, rest => some (acc, rest)
  | n + 1, acc, .string key :: rest =>
    match p rest with
    | none => none
    | some (v, rest1) =>
      parse_map_go p n (insert_nocheck acc (.borrowed key) v) rest1
  | _ + 1, _, _ => none

/-- Embedding of BorrowDeserializer::parse.  The Rust implementation
recurses on the call stack over the event cursor; the fuel argument is
the explicit bound on the nesting depth that makes the recursion
structural, and is threaded to the array and map loops. -/
def parse : Nat → List Node → Option (Value × List Node)
  | 0 => fun _ => none
  | fuel + 1 => fun events =>
    match events with
    | [] => none
    | .static s :: rest => some (.static s, rest)
    | .string s :: rest => some (.string (.borrowed s), rest)
    | .array len :: rest =>
      match parse_array_go (parse fuel) len rest with
      | none => none
      | some (vs, rest1) => some (.array vs, rest1)
    | .object len :: rest =>
      match parse_map_go (parse fuel) len [] rest with
      | none => none
      | some (o, rest1) => some (.object o, rest1)

/-- Embedding of BorrowDeserializer::parse_array at a given fuel level. -/
def parse_array (fuel len : Nat) (events : List Node) :
    Option (List Value × List Node) :=
  parse_array_go (parse fuel) len events

/-- Embedding of BorrowDeserializer::parse_map at a given fuel level,
with the accumulated object of the loop made explicit. -/
def parse_map (fuel len : Nat) (acc : Object) (events : List Node) :
    Option (Object × List Node) :=
  parse_map_go (parse fuel) len acc events

/-- Specification-side description of the array builder contract:
recursively build the next n values in event order, one after the
other, threading the remaining events. -/
def buildNext (fuel : Nat) : Nat → List Node → Option (List Value × List Node)
  | 0, s => some ([], s)
  | n + 1, s =>
    match parse fuel s with
    | none => none
    | some (v, s1) =>
      match buildNext fuel n s1 with
      | none => none
      | some (vs, s2) => some (v :: vs, s2)

/-- The array loop of the source is exactly the sequential build of the
next n values. -/
theorem parse_array_eq_buildNext (fuel : Nat) :
    ∀ (n : Nat) (s : List Node), parse_array fuel n s = buildNext fuel n s := by
  intro n
  induction n with
  | zero => intro s; rfl
  | succ n ih =>
    intro s
    show parse_array_go (parse fuel) (n + 1) s = buildNext fuel (n + 1) s
    simp only [parse_array_go, buildNext]
    cases parse fuel s with
    | none => rfl
    | some r =>
      obtain ⟨v, rest1⟩ := r
      dsimp only
      have hr := ih rest1
      simp only [parse_array] at hr
      rw [hr]

/-- Sequentially building n values yields exactly n values. -/
theorem buildNext_length (fuel : Nat) :
    ∀ (n : Nat) (s : List Node) (vs : List Value) (rest : List Node),
      buildNext fuel n s = some (vs, rest) → vs.length = n := by
  intro n
  induction n with
  | zero =>
    intro s vs rest h
    simp only [buildNext, Option.some.injEq, Prod.mk.injEq] at h
    rw [← h.1]
    rfl
  | succ n ih =>
    intro s vs rest h
    simp only [buildNext] at h
    split at h
    next heq => exact Option.noConfusion h
    next v s1 heq =>
      split at h
      next heq2 => exact Option.noConfusion h
      next vs2 s2 heq2 =>
        simp only [Option.some.injEq, Prod.mk.injEq] at h
        rw [← h.1]
        simp [ih s1 vs2 s2 heq2]

/-- C3: on an Array open event with declared count n followed by event
sequences for exactly n values, the builder produces the Array of those n
values in event order; the preallocated vector is filled with exactly n
elements. -/
theorem array_builder_event_order (fuel n : Nat) (s : List Node)
    (vs : List Value) (rest : List Node)
    (h : buildNext fuel n s = some (vs, rest)) :
    parse (fuel + 1) (.array n :: s) = some (.array vs, rest) ∧
      vs.length = n := by
  constructor
  · have ha : parse_array fuel n s = some (vs, rest) := by
      rw [parse_array_eq_buildNext]; exact h
    simp only [parse]
    rw [show parse_array_go (parse fuel) n s = parse_array fuel n s from rfl, ha]
  · exact buildNext_length fuel n s vs rest h

/-- Closed witness for the array builder: three scalar events after an
Array open with count 3 produce the 3-element array in event order. -/
theorem array_builder_event_order_witness :
    parse 2 [.array 3, .static .null, .static (.bool true), .static (.i64 5)] =
      some (.array [.static .null, .static (.bool true), .static (.i64 5)], []) ∧
    ([Value.static .null, .static (.bool true), .static (.i64 5)].length = 3) :=
  array_builder_event_order 1 3
    [.static .null, .static (.bool true), .static (.i64 5)]
    [.static .null, .static (.bool true), .static (.i64 5)] [] rfl

/-- C9: a key event that is not a String event makes the map builder
abort with the unreachable panic, modelled as the absent result, rather
than construct a corrupted object; conversely any successful build step
implies the key event was a String event, so the panic branch is
unreachable when every key event is a String event. -/
theorem map_builder_nonstring_key_aborts (fuel n : Nat) (acc : Object)
    (e : Node) (s : List Node) :
    (e.isString = false → parse_map fuel (n + 1) acc (e :: s) = none) ∧
    ((parse_map fuel (n + 1) acc (e :: s)).isSome → e.isString = true) := by
  constructor
  · intro h
    cases e <;> simp_all [Node.isString, parse_map, parse_map_go]
  · intro h
    cases e <;> simp_all [Node.isString, parse_map, parse_map_go]

/-- Closed witness: an Array open event in key position aborts the map
builder. -/
theorem map_builder_nonstring_key_aborts_witness :
    parse_map 1 1 [] [.array 0] = none :=
  (map_builder_nonstring_key_aborts 1 0 [] (.array 0) []).1 rfl

/-- Looking up the inserted key after insert_nocheck always finds the
newly inserted value: a later duplicate pair overwrites the earlier. -/
theorem lookupKey_insert_nocheck (o : Object) (k : Cow) (x : Value) :
    lookupKey (insert_nocheck o k x) k.content = some x := by
  induction o with
  | nil => simp [insert_nocheck, Object.insert, lookupKey]
  | cons p rest ih =>
    obtain ⟨k0, v0⟩ := p
    cases hk : (k0.content == k.content) with
    | true => simp only [insert_nocheck, Object.insert, hk, if_true, lookupKey]
    | false =>
      simp only [insert_nocheck, Object.insert, hk, Bool.false_eq_true,
        if_false, lookupKey]
      exact ih

/-- The map builder loop preserves the key uniqueness invariant of the
accumulated object. -/
theorem parse_map_keysUnique (fuel : Nat) :
    ∀ (n : Nat) (acc : Object) (s : List Node) (o : Object) (rest : List Node),
      keysUnique acc = true → parse_map fuel n acc s = some (o, rest) →
      keysUnique o = true := by
  intro n
  induction n with
  | zero =>
    intro acc s o rest h1 h2
    simp only [parse_map, parse_map_go, Option.some.injEq, Prod.mk.injEq] at h2
    rw [← h2.1]
    exact h1
  | succ n ih =>
    intro acc s o rest h1 h2
    cases s with
    | nil => exact Option.noConfusion h2
    | cons e s1 =>
      cases e with
      | string key =>
        simp only [parse_map, parse_map_go] at h2
        split at h2
        · exact Option.noConfusion h2
        · rename_i v rest1 heq
          exact ih (insert_nocheck acc (.borrowed key) v) rest1 o rest
            (keysUnique_insert acc (.borrowed key) v h1) h2
      | static s2 => exact Option.noConfusion h2
      | array len => exact Option.noConfusion h2
      | object len => exact Option.noConfusion h2

/-- C4: object keys stay unique: inserting under an existing key replaces
the prior value and returns it, a later duplicate pair given to the
builder overwrites the earlier pair, and the object built by the map loop
keeps unique keys. -/
theorem object_key_uniqueness :
    (∀ (o : Object) (k : Cow) (x : Value), keysUnique o = true →
      keysUnique (Object.insert o k x).2 = true ∧
      (Object.insert o k x).1 = lookupKey o k.content) ∧
    (∀ (o : Object) (k : Cow) (x : Value),
      lookupKey (insert_nocheck o k x) k.content = some x) ∧
    (∀ (fuel n : Nat) (acc : Object) (s : List Node) (o : Object)
      (rest : List Node), keysUnique acc = true →
      parse_map fuel n acc s = some (o, rest) → keysUnique o = true) :=
  ⟨fun o k x h => ⟨keysUnique_insert o k x h, Object.insert_fst_eq_lookupKey o k x⟩,
   lookupKey_insert_nocheck,
   fun fuel n acc s o rest h1 h2 => parse_map_keysUnique fuel n acc s o rest h1 h2⟩

/-- Closed witness for key uniqueness: a duplicate key event pair makes
the builder overwrite the earlier value and the built object keeps
unique keys. -/
theorem object_key_uniqueness_witness :
    parse_map 1 2 []
        [.string "k", .static (.i64 1), .string "k", .static (.i64 2)] =
      some ([(.borrowed "k", .static (.i64 2))], []) ∧
    keysUnique [(Cow.borrowed "k", Value.static (.i64 2))] = true ∧
    (Object.insert [(Cow.borrowed "k", Value.static (.i64 1))]
        (.borrowed "k") (.static (.i64 2))).1 = some (.static (.i64 1)) := by
  refine ⟨rfl, ?_, ?_⟩
  · exact object_key_uniqueness.2.2 1 2 []
      [.string "k", .static (.i64 1), .string "k", .static (.i64 2)]
      [(.borrowed "k", .static (.i64 2))] [] rfl rfl
  · rw [(object_key_uniqueness.1 [(Cow.borrowed "k", Value.static (.i64 1))]
      (.borrowed "k") (.static (.i64 2)) rfl).2]
    rfl

mutual

/-- Embedding of Value::into_static: a borrowed String becomes an owned
copy of the same bytes, Array and Object recurse (keys become owned),
and every other value (Static leaves, already owned Strings) passes
through the final catch-all unchanged. -/
def into_static : Value → Value
  | .string (.borrowed s) => .string (.owned s)
  | .array arr => .array (into_staticL arr)
  | .object obj => .object (into_staticO obj)
  | v => v

/-- Element-wise into_static over an array, the collect of the source. -/
def into_staticL : List Value → List Value
  | [] => []
  | v :: vs => into_static v :: into_staticL vs

/-- Pair-wise into_static over an object: keys become owned via
into_owned, values recurse; iteration order is kept. -/
def into_staticO : Object → Object
  | [] => []
  | (k, v) :: rest => (.owned k.content, into_static v) :: into_staticO rest

end

mutual

/-- Embedding of Value::clone_static: every String (borrowed or owned)
becomes an owned copy, Static leaves are copied, Array and Object
recurse with keys cloned to owned strings. -/
def clone_static : Value → Value
  | .static s => .static s
  | .string s => .string (.owned s.content)
  | .array arr => .array (clone_staticL arr)
  | .object obj => .object (clone_staticO obj)

/-- Element-wise clone_static over an array. -/
def clone_staticL : List Value → List Value
  | [] => []
  | v :: vs => clone_static v :: clone_staticL vs

/-- Pair-wise clone_static over an object, keeping iteration order. -/
def clone_staticO : Object → Object
  | [] => []
  | (k, v) :: rest => (.owned k.content, clone_static v) :: clone_staticO rest

end

mutual

/-- Generic ownership-retagging walk: applies a Cow transformation to
every String leaf and every Object key, recursing through the tree.
Both promotions and the borrowing reconstruction performed by the
builder are instances of this walk. -/
def mapCow (h : Cow → Cow) : Value → Value
  | .static s => .static s
  | .string s => .string (h s)
  | .array vs => .array (mapCowL h vs)
  | .object o => .object (mapCowO h o)

/-- Element-wise mapCow over an array. -/
def mapCowL (h : Cow → Cow) : List Value → List Value
  | [] => []
  | v :: vs => mapCow h v :: mapCowL h vs

/-- Pair-wise mapCow over an object, keeping iteration order. -/
def mapCowO (h : Cow → Cow) : Object → Object
  | [] => []
  | (k, v) :: rest => (h k, mapCow h v) :: mapCowO h rest

end

/-- Retag a Cow as owned, keeping its content. -/
def toOwned (c : Cow) : Cow := .owned c.content

/-- Retag a Cow as borrowed, keeping its content. -/
def toBorrowed (c : Cow) : Cow := .borrowed c.content

/-- Modelled from the spec: scalar leaf equality of the cmp collaborator.
Integer leaves compare by mathematical value across the two
representations (sign-aware); floats compare bitwise, the reflexive
choice the spec leaves open for NaN and requires consistently. -/
def staticEq : StaticNode → StaticNode → Bool
  | .null, .null => true
  | .bool a, .bool b => a == b
  | .i64 a, .i64 b => a == b
  | .u64 a, .u64 b => a == b
  | .i64 a, .u64 b => a == Int.ofNat b
  | .u64 a, .i64 b => Int.ofNat a == b
  | .f64 a, .f64 b => a == b
  | _, _ => false

mutual

/-- Modelled from the spec: the structural equality contract of the cmp
collaborator.  String leaves compare by content regardless of ownership;
arrays compare element-wise in order; objects compare by size and
key-wise value lookup, ignoring insertion order. -/
def valueEq : Value → Value → Bool
  | .static a, .static b => staticEq a b
  | .string a, .string b => a.content == b.content
  | .array xs, .array ys => listEq xs ys
  | .object a, .object b => (a.length == b.length) && objSub a b
  | _, _ => false

/-- Element-wise equality of two arrays. -/
def listEq : List Value → List Value → Bool
  | [], [] => true
  | x :: xs, y :: ys => valueEq x y && listEq xs ys
  | _, _ => false

/-- Every pair of the first object has an equal value under the same key
content in the second object. -/
def objSub : Object → Object → Bool
  | [], _ => true
  | (k, v) :: rest, b =>
    (match lookupKey b k.content with
     | some w => valueEq v w
     | none => false) && objSub rest b

end

mutual

/-- Well-formedness of a value tree: every Object in it satisfies the
key uniqueness invariant of the data model. -/
def wfV : Value → Bool
  | .static _ => true
  | .string _ => true
  | .array vs => wfL vs
  | .object o => keysUnique o && wfO o

/-- Well-formedness of every element of an array. -/
def wfL : List Value → Bool
  | [] => true
  | v :: vs => wfV v && wfL vs

/-- Well-formedness of every value of an object. -/
def wfO : Object → Bool
  | [] => true
  | (_, v) :: rest => wfV v && wfO rest

end

mutual

/-- Modelled from the spec: the event stream of a tree, the composition
of the encoder collaborator (which serializes leaves, arrays and objects
in iteration order) with the tokenizer collaborator (which announces
each Array and Object with its exact element count).  The round-trip
contract is stated at this parse-event interface of spec section 6. -/
def toEvents : Value → List Node
  | .static s => [.static s]
  | .string c => [.string c.content]
  | .array vs => .array vs.length :: toEventsL vs
  | .object o => .object o.length :: toEventsO o

/-- Concatenated event sequences of array elements, in order. -/
def toEventsL : List Value → List Node
  | [] => []
  | v :: vs => toEvents v ++ toEventsL vs

/-- Concatenated key and value event pairs of an object, in iteration
order; every key event is a String event. -/
def toEventsO : Object → List Node
  | [] => []
  | (k, v) :: rest => .string k.content :: (toEvents v ++ toEventsO rest)

end

mutual

/-- Nesting depth of a value, the recursion depth the builder needs. -/
def depthV : Value → Nat
  | .static _ => 1
  | .string _ => 1
  | .array vs => 1 + depthL vs
  | .object o => 1 + depthO o

/-- Maximal depth of the elements of an array. -/
def depthL : List Value → Nat
  | [] => 0
  | v :: vs => max (depthV v) (depthL vs)

/-- Maximal depth of the values of an object. -/
def depthO : Object → Nat
  | [] => 0
  | (_, v) :: rest => max (depthV v) (depthO rest)

end

/-- Modelled from the spec: the top-level to_value entry point at the
parse-event interface; the tokenizer collaborator has already produced
the event stream, and the builder consumes it with enough fuel for any
nesting the stream can announce (each level opens with one event). -/
def to_value (events : List Node) : Option Value :=
  (parse (events.length + 1) events).map fun r => r.1

/-- Scalar leaf equality is reflexive. -/
theorem staticEq_refl (s : StaticNode) : staticEq s s = true := by
  cases s <;> simp [staticEq]

/-- Key membership distributes over append. -/
theorem keyMem_append (a b : Object) (q : String) :
    keyMem (a ++ b) q = (keyMem a q || keyMem b q) := by
  simp [keyMem]

/-- In an object without the key content q, no member pair carries q. -/
theorem keyMem_false_of_mem (o : Object) (q : String)
    (hf : keyMem o q = false) {k : Cow} {v : Value} (hm : (k, v) ∈ o) :
    (k.content == q) = false := by
  induction o with
  | nil => simp at hm
  | cons p rest ih =>
    obtain ⟨k0, v0⟩ := p
    rw [keyMem_cons, Bool.or_eq_false_iff] at hf
    rcases List.mem_cons.mp hm with heq | htl
    · have h1 : k = k0 := congrArg Prod.fst heq
      rw [h1]
      exact hf.1
    · exact ih hf.2 htl

/-- The ownership-retagging walk keeps the object size. -/
theorem mapCowO_length (h : Cow → Cow) :
    ∀ o : Object, (mapCowO h o).length = o.length := by
  intro o
  induction o with
  | nil => rfl
  | cons p rest ih =>
    obtain ⟨k, v⟩ := p
    simp [mapCowO, ih]

/-- A content-preserving ownership-retagging walk keeps the iteration
order of the key contents. -/
theorem mapCowO_keys (h : Cow → Cow) (hc : ∀ c, (h c).content = c.content) :
    ∀ o : Object, (mapCowO h o).map (fun p => p.1.content) =
      o.map (fun p => p.1.content) := by
  intro o
  induction o with
  | nil => rfl
  | cons p rest ih =>
    obtain ⟨k, v⟩ := p
    simp [mapCowO, ih, hc]

/-- Under unique keys, looking up a member key in the retagged object
finds the retagged value of that member. -/
theorem lookupKey_mapCowO (h : Cow → Cow) (hc : ∀ c, (h c).content = c.content) :
    ∀ (o : Object) (k : Cow) (v : Value), keysUnique o = true → (k, v) ∈ o →
      lookupKey (mapCowO h o) k.content = some (mapCow h v) := by
  intro o
  induction o with
  | nil =>
    intro k v _ hm
    simp at hm
  | cons p rest ih =>
    obtain ⟨k0, v0⟩ := p
    intro k v hu hm
    simp only [keysUnique, Bool.and_eq_true, Bool.not_eq_true'] at hu
    simp only [mapCowO, lookupKey]
    rcases List.mem_cons.mp hm with heq | htl
    · have h1 : k = k0 := congrArg Prod.fst heq
      have h2 : v = v0 := congrArg Prod.snd heq
      rw [h1, h2, if_pos (by rw [hc k0]; exact beq_self_eq_true _)]
    · rw [if_neg ?_]
      · exact ih k v hu.2 htl
      · have hne : (k.content == k0.content) = false :=
          keyMem_false_of_mem rest k0.content hu.1 htl
        rw [hc k0]
        intro hcon
        exact (beq_eq_false_iff_ne.mp hne) (beq_iff_eq.mp hcon).symm

/-- Sufficient condition for the object inclusion check: every member
pair of the first object has an equal value in the second. -/
theorem objSub_of_forall :
    ∀ (o b : Object),
      (∀ p ∈ o, ∃ w, lookupKey b p.1.content = some w ∧ valueEq p.2 w = true) →
      objSub o b = true := by
  intro o b
  induction o with
  | nil => intro _; rfl
  | cons p rest ih =>
    intro hall
    obtain ⟨k, v⟩ := p
    obtain ⟨w, hw1, hw2⟩ := hall (k, v) (List.mem_cons_self _ _)
    simp only [objSub, hw1, Bool.and_eq_true]
    exact ⟨hw2, ih fun p hp => hall p (List.mem_cons_of_mem _ hp)⟩

mutual

/-- A content-preserving ownership retag of a well-formed tree is equal
to the source under the structural equality contract. -/
theorem valueEq_mapCow (h : Cow → Cow) (hc : ∀ c, (h c).content = c.content) :
    (v : Value) → wfV v = true → valueEq v (mapCow h v) = true
  | .static s, _ => by
    simp only [mapCow, valueEq]
    exact staticEq_refl s
  | .string c, _ => by simp [mapCow, valueEq, hc]
  | .array vs, hw => by
    simp only [mapCow, valueEq]
    exact listEq_mapCow h hc vs (by simpa [wfV] using hw)
  | .object o, hw => by
    have hw' : keysUnique o = true ∧ wfO o = true := by
      simpa [wfV] using hw
    simp only [mapCow, valueEq, Bool.and_eq_true]
    refine ⟨by rw [mapCowO_length]; exact beq_self_eq_true _, ?_⟩
    apply objSub_of_forall
    intro p hp
    obtain ⟨k, v⟩ := p
    exact ⟨mapCow h v, lookupKey_mapCowO h hc o k v hw'.1 hp,
      objPointwise_mapCow h hc o hw'.2 k v hp⟩

/-- Element-wise version of valueEq_mapCow for arrays. -/
theorem listEq_mapCow (h : Cow → Cow) (hc : ∀ c, (h c).content = c.content) :
    (vs : List Value) → wfL vs = true → listEq vs (mapCowL h vs) = true
  | [], _ => rfl
  | v :: vs, hw => by
    have hw' : wfV v = true ∧ wfL vs = true := by simpa [wfL] using hw
    simp only [mapCowL, listEq, Bool.and_eq_true]
    exact ⟨valueEq_mapCow h hc v hw'.1, listEq_mapCow h hc vs hw'.2⟩

/-- Member-wise version of valueEq_mapCow for object values. -/
theorem objPointwise_mapCow (h : Cow → Cow) (hc : ∀ c, (h c).content = c.content) :
    (o : Object) → wfO o = true →
      ∀ (k : Cow) (v : Value), (k, v) ∈ o → valueEq v (mapCow h v) = true
  | [], _, k, v, hm => absurd hm (List.not_mem_nil _)
  | (k0, v0) :: rest, hw, k, v, hm => by
    have hw' : wfV v0 = true ∧ wfO rest = true := by simpa [wfO] using hw
    rcases List.mem_cons.mp hm with heq | htl
    · have h2 : v = v0 := congrArg Prod.snd heq
      rw [h2]
      exact valueEq_mapCow h hc v0 hw'.1
    · exact objPointwise_mapCow h hc rest hw'.2 k v htl

end

mutual

/-- into_static is the ownership-retagging walk that makes every Cow
owned: borrowed strings are copied, owned strings and Static leaves are
untouched, which coincides with retagging as owned. -/
theorem into_static_eq_mapCow : (v : Value) → into_static v = mapCow toOwned v
  | .static s => rfl
  | .string (.borrowed s) => rfl
  | .string (.owned s) => rfl
  | .array vs => by
    simp only [into_static, mapCow]
    rw [into_staticL_eq_mapCowL vs]
  | .object o => by
    simp only [into_static, mapCow]
    rw [into_staticO_eq_mapCowO o]

/-- Array version of into_static_eq_mapCow. -/
theorem into_staticL_eq_mapCowL :
    (vs : List Value) → into_staticL vs = mapCowL toOwned vs
  | [] => rfl
  | v :: vs => by
    simp only [into_staticL, mapCowL]
    rw [into_static_eq_mapCow v, into_staticL_eq_mapCowL vs]

/-- Object version of into_static_eq_mapCow. -/
theorem into_staticO_eq_mapCowO :
    (o : Object) → into_staticO o = mapCowO toOwned o
  | [] => rfl
  | (k, v) :: rest => by
    simp only [into_staticO, mapCowO, toOwned]
    rw [into_static_eq_mapCow v, into_staticO_eq_mapCowO rest]

end

mutual

/-- clone_static is the ownership-retagging walk that makes every Cow an
owned copy of its content. -/
theorem clone_static_eq_mapCow : (v : Value) → clone_static v = mapCow toOwned v
  | .static s => rfl
  | .string s => rfl
  | .array vs => by
    simp only [clone_static, mapCow]
    rw [clone_staticL_eq_mapCowL vs]
  | .object o => by
    simp only [clone_static, mapCow]
    rw [clone_staticO_eq_mapCowO o]

/-- Array version of clone_static_eq_mapCow. -/
theorem clone_staticL_eq_mapCowL :
    (vs : List Value) → clone_staticL vs = mapCowL toOwned vs
  | [] => rfl
  | v :: vs => by
    simp only [clone_staticL, mapCowL]
    rw [clone_static_eq_mapCow v, clone_staticL_eq_mapCowL vs]

/-- Object version of clone_static_eq_mapCow. -/
theorem clone_staticO_eq_mapCowO :
    (o : Object) → clone_staticO o = mapCowO toOwned o
  | [] => rfl
  | (k, v) :: rest => by
    simp only [clone_staticO, mapCowO, toOwned]
    rw [clone_static_eq_mapCow v, clone_staticO_eq_mapCowO rest]

end

/-- Retagging as owned keeps the content. -/
theorem toOwned_content (c : Cow) : (toOwned c).content = c.content := by
  cases c <;> rfl

/-- Retagging as borrowed keeps the content. -/
theorem toBorrowed_content (c : Cow) : (toBorrowed c).content = c.content := by
  cases c <;> rfl

/-- C1: for every well-formed borrowed tree, the consuming promotion
into_static and the cloning promotion clone_static each produce a tree
equal to the source under the structural equality contract; only the
ownership tags of String and key Cows change.  The source itself is a
pure value here, so the cloning promotion trivially leaves it unchanged. -/
theorem promotion_preserves_equality (v : Value) (hw : wfV v = true) :
    valueEq v (into_static v) = true ∧ valueEq v (clone_static v) = true := by
  rw [into_static_eq_mapCow v, clone_static_eq_mapCow v]
  exact ⟨valueEq_mapCow toOwned toOwned_content v hw,
    valueEq_mapCow toOwned toOwned_content v hw⟩

/-- Closed witness for promotion equality on a nested tree with an
object, an array, borrowed and owned strings and scalar leaves. -/
theorem promotion_preserves_equality_witness :
    valueEq
      (.object [(.borrowed "a", .array [.static (.i64 1), .string (.borrowed "s")]),
        (.owned "b", .static .null)])
      (into_static
        (.object [(.borrowed "a", .array [.static (.i64 1), .string (.borrowed "s")]),
          (.owned "b", .static .null)])) = true ∧
    valueEq
      (.object [(.borrowed "a", .array [.static (.i64 1), .string (.borrowed "s")]),
        (.owned "b", .static .null)])
      (clone_static
        (.object [(.borrowed "a", .array [.static (.i64 1), .string (.borrowed "s")]),
          (.owned "b", .static .null)])) = true :=
  promotion_preserves_equality
    (.object [(.borrowed "a", .array [.static (.i64 1), .string (.borrowed "s")]),
      (.owned "b", .static .null)]) (by decide)

mutual

/-- The builder parses the event stream of a well-formed tree back into
the same tree with every Cow retagged as borrowed, leaving the trailing
events untouched, whenever the fuel covers the nesting depth. -/
theorem parse_toEvents : (v : Value) → (fuel : Nat) → wfV v = true →
    depthV v ≤ fuel → ∀ rest : List Node,
    parse fuel (toEvents v ++ rest) = some (mapCow toBorrowed v, rest)
  | .static s, fuel, _, hd, rest => by
    obtain ⟨f, rfl⟩ : ∃ f, fuel = f + 1 := by
      cases fuel with
      | zero => simp [depthV] at hd
      | succ f => exact ⟨f, rfl⟩
    rfl
  | .string c, fuel, _, hd, rest => by
    obtain ⟨f, rfl⟩ : ∃ f, fuel = f + 1 := by
      cases fuel with
      | zero => simp [depthV] at hd
      | succ f => exact ⟨f, rfl⟩
    rfl
  | .array vs, fuel, hw, hd, rest => by
    obtain ⟨f, rfl⟩ : ∃ f, fuel = f + 1 := by
      cases fuel with
      | zero => simp [depthV] at hd
      | succ f => exact ⟨f, rfl⟩
    have hdl : depthL vs ≤ f := by
      simp only [depthV] at hd
      omega
    have h1 := parseL_toEvents vs f (by simpa [wfV] using hw) hdl rest
    simp only [toEvents, List.cons_append, parse, mapCow]
    rw [show parse_array_go (parse f) vs.length (toEventsL vs ++ rest) =
      some (mapCowL toBorrowed vs, rest) from h1]
  | .object o, fuel, hw, hd, rest => by
    obtain ⟨f, rfl⟩ : ∃ f, fuel = f + 1 := by
      cases fuel with
      | zero => simp [depthV] at hd
      | succ f => exact ⟨f, rfl⟩
    have hw' : keysUnique o = true ∧ wfO o = true := by simpa [wfV] using hw
    have hdo : depthO o ≤ f := by
      simp only [depthV] at hd
      omega
    have h1 := parseO_toEvents o f hw'.2 hdo hw'.1 [] rest (fun p hp => rfl)
    rw [List.nil_append] at h1
    simp only [toEvents, List.cons_append, parse, mapCow]
    rw [show parse_map_go (parse f) o.length [] (toEventsO o ++ rest) =
      some (mapCowO toBorrowed o, rest) from h1]

/-- Array loop version of parse_toEvents: the concatenated element event
sequences parse back to the retagged elements in order. -/
theorem parseL_toEvents : (vs : List Value) → (f : Nat) → wfL vs = true →
    depthL vs ≤ f → ∀ rest : List Node,
    parse_array_go (parse f) vs.length (toEventsL vs ++ rest) =
      some (mapCowL toBorrowed vs, rest)
  | [], f, _, _, rest => rfl
  | v :: vs, f, hw, hd, rest => by
    have hw' : wfV v = true ∧ wfL vs = true := by simpa [wfL] using hw
    have hd1 : depthV v ≤ f := by
      simp only [depthL] at hd
      omega
    have hd2 : depthL vs ≤ f := by
      simp only [depthL] at hd
      omega
    have hv := parse_toEvents v f hw'.1 hd1 (toEventsL vs ++ rest)
    simp only [toEventsL, mapCowL, List.length_cons, List.append_assoc]
    simp only [parse_array_go]
    rw [hv]
    dsimp only
    rw [parseL_toEvents vs f hw'.2 hd2 rest]

/-- Map loop version of parse_toEvents: the key and value event pairs of
a unique-key object parse back onto any accumulator whose keys are
disjoint from the incoming ones, appending the retagged pairs in event
order. -/
theorem parseO_toEvents : (o : Object) → (f : Nat) → wfO o = true →
    depthO o ≤ f → keysUnique o = true →
    ∀ (acc : Object) (rest : List Node),
      (∀ p ∈ o, keyMem acc p.1.content = false) →
      parse_map_go (parse f) o.length acc (toEventsO o ++ rest) =
        some (acc ++ mapCowO toBorrowed o, rest)
  | [], f, _, _, _, acc, rest, _ => by simp [toEventsO, parse_map_go, mapCowO]
  | (k, v) :: o2, f, hw, hd, hu, acc, rest, hfresh => by
    have hw' : wfV v = true ∧ wfO o2 = true := by simpa [wfO] using hw
    have hu' : keyMem o2 k.content = false ∧ keysUnique o2 = true := by
      simpa [keysUnique, Bool.and_eq_true, Bool.not_eq_true'] using hu
    have hd1 : depthV v ≤ f := by
      simp only [depthO] at hd
      omega
    have hd2 : depthO o2 ≤ f := by
      simp only [depthO] at hd
      omega
    have hv := parse_toEvents v f hw'.1 hd1 (toEventsO o2 ++ rest)
    have hfr2 : ∀ p ∈ o2,
        keyMem (acc ++ [(Cow.borrowed k.content, mapCow toBorrowed v)])
          p.1.content = false := by
      intro p hp
      rw [keyMem_append]
      have h1 : keyMem acc p.1.content = false :=
        hfresh p (List.mem_cons_of_mem _ hp)
      have h2 : (p.1.content == k.content) = false := by
        obtain ⟨pk, pv⟩ := p
        exact keyMem_false_of_mem o2 k.content hu'.1 hp
      rw [h1]
      simp only [Bool.false_or, keyMem, List.any_cons, List.any_nil,
        Bool.or_false]
      exact beq_eq_false_iff_ne.mpr
        fun hcon => (beq_eq_false_iff_ne.mp h2) hcon.symm
    simp only [toEventsO, mapCowO, List.length_cons, List.cons_append,
      List.append_assoc, toBorrowed]
    simp only [parse_map_go]
    rw [hv]
    dsimp only
    rw [insert_nocheck_fresh acc (.borrowed k.content) (mapCow toBorrowed v)
      (hfresh (k, v) (List.mem_cons_self _ _))]
    rw [parseO_toEvents o2 f hw'.2 hd2 hu'.2
      (acc ++ [(Cow.borrowed k.content, mapCow toBorrowed v)]) rest hfr2]
    rw [List.append_assoc, List.singleton_append]

end

mutual

/-- The nesting depth of a tree never exceeds its event count: every
nesting level is announced by at least one event. -/
theorem depthV_le_toEvents_length : (v : Value) → depthV v ≤ (toEvents v).length
  | .static s => by simp [depthV, toEvents]
  | .string c => by simp [depthV, toEvents]
  | .array vs => by
    simp only [depthV, toEvents, List.length_cons]
    have := depthL_le_toEventsL_length vs
    omega
  | .object o => by
    simp only [depthV, toEvents, List.length_cons]
    have := depthO_le_toEventsO_length o
    omega

/-- Array version of depthV_le_toEvents_length. -/
theorem depthL_le_toEventsL_length :
    (vs : List Value) → depthL vs ≤ (toEventsL vs).length
  | [] => by simp [depthL, toEventsL]
  | v :: vs => by
    simp only [depthL, toEventsL, List.length_append]
    have h1 := depthV_le_toEvents_length v
    have h2 := depthL_le_toEventsL_length vs
    refine max_le ?_ ?_ <;> omega

/-- Object version of depthV_le_toEvents_length. -/
theorem depthO_le_toEventsO_length :
    (o : Object) → depthO o ≤ (toEventsO o).length
  | [] => by simp [depthO, toEventsO]
  | (k, v) :: rest => by
    simp only [depthO, toEventsO, List.length_cons, List.length_append]
    have h1 := depthV_le_toEvents_length v
    have h2 := depthO_le_toEventsO_length rest
    refine max_le ?_ ?_ <;> omega

end

/-- C8: encoding a well-formed tree and decoding the result through the
top-level entry point yields a tree equal to the source under the
structural equality contract. -/
theorem encode_decode_roundtrip (v : Value) (hw : wfV v = true) :
    ∃ w, to_value (toEvents v) = some w ∧ valueEq v w = true := by
  refine ⟨mapCow toBorrowed v, ?_, valueEq_mapCow toBorrowed toBorrowed_content v hw⟩
  have hp := parse_toEvents v ((toEvents v).length + 1) hw
    (by have := depthV_le_toEvents_length v; omega) []
  rw [List.append_nil] at hp
  simp [to_value, hp]

/-- Closed witness for the round trip on a nested tree. -/
theorem encode_decode_roundtrip_witness :
    ∃ w,
      to_value (toEvents
        (.object [(.borrowed "a", .array [.static (.i64 1), .string (.owned "s")]),
          (.owned "b", .static (.bool true))])) = some w ∧
      valueEq
        (.object [(.borrowed "a", .array [.static (.i64 1), .string (.owned "s")]),
          (.owned "b", .static (.bool true))]) w = true :=
  encode_decode_roundtrip
    (.object [(.borrowed "a", .array [.static (.i64 1), .string (.owned "s")]),
      (.owned "b", .static (.bool true))]) (by decide)

/-- C2: an object built from n key and value event pairs iterates in
event order (the builder reconstructs exactly the pair list, with keys
retagged as borrowed, so its key contents are the event keys in order),
and the iteration order of key contents is stable under both promotions;
lookup, comparison and encoding are pure functions of the tree and
cannot reorder it. -/
theorem object_iteration_insertion_order :
    (∀ (o : Object) (f : Nat) (rest : List Node), keysUnique o = true →
      wfO o = true → depthO o ≤ f →
      parse (f + 1) (.object o.length :: (toEventsO o ++ rest)) =
        some (.object (mapCowO toBorrowed o), rest) ∧
      (mapCowO toBorrowed o).map (fun p => p.1.content) =
        o.map (fun p => p.1.content)) ∧
    (∀ o : Object,
      (into_staticO o).map (fun p => p.1.content) =
        o.map (fun p => p.1.content) ∧
      (clone_staticO o).map (fun p => p.1.content) =
        o.map (fun p => p.1.content)) := by
  constructor
  · intro o f rest hu hw hd
    constructor
    · have h1 := parseO_toEvents o f hw hd hu [] rest (fun p hp => rfl)
      rw [List.nil_append] at h1
      simp only [parse]
      rw [show parse_map_go (parse f) o.length [] (toEventsO o ++ rest) =
        some (mapCowO toBorrowed o, rest) from h1]
    · exact mapCowO_keys toBorrowed toBorrowed_content o
  · intro o
    constructor
    · rw [into_staticO_eq_mapCowO o]
      exact mapCowO_keys toOwned toOwned_content o
    · rw [clone_staticO_eq_mapCowO o]
      exact mapCowO_keys toOwned toOwned_content o

/-- Closed witness: an Object open announcing two pairs followed by the
two pairs produces an object iterating in event order, with the example
of spec testable property 7. -/
theorem object_iteration_insertion_order_witness :
    parse 2 [.object 2, .string "a", .static (.i64 1), .string "b",
        .static (.i64 2)] =
      some (.object [(.borrowed "a", .static (.i64 1)),
        (.borrowed "b", .static (.i64 2))], []) ∧
    ([(Cow.borrowed "a", Value.static (.i64 1)),
      (Cow.borrowed "b", Value.static (.i64 2))].map (fun p => p.1.content) =
        ["a", "b"]) := by
  refine ⟨?_, rfl⟩
  exact (object_iteration_insertion_order.1
    [(.borrowed "a", .static (.i64 1)), (.borrowed "b", .static (.i64 2))] 1 []
    (by decide) (by decide) (by decide)).1

/-- C6: as_i64 returns the stored value for an I64 leaf and succeeds for a
U64 leaf exactly when the value fits the signed 64-bit range; as_u64
returns the stored value for a U64 leaf and succeeds for an I64 leaf
exactly when it is non-negative; both are absent on every other variant. -/
theorem as_i64_as_u64_cross_widening :
    (∀ i : Int, Value.as_i64 (.static (.i64 i)) = some i) ∧
    (∀ u : Nat, u < 2 ^ 64 →
      (u ≤ 2 ^ 63 - 1 → Value.as_i64 (.static (.u64 u)) = some (Int.ofNat u)) ∧
      (2 ^ 63 - 1 < u → Value.as_i64 (.static (.u64 u)) = none)) ∧
    (∀ u : Nat, Value.as_u64 (.static (.u64 u)) = some u) ∧
    (∀ i : Int, -(2 ^ 63) ≤ i → i ≤ 2 ^ 63 - 1 →
      (0 ≤ i → Value.as_u64 (.static (.i64 i)) = some i.toNat ∧
        Int.ofNat i.toNat = i) ∧
      (i < 0 → Value.as_u64 (.static (.i64 i)) = none)) ∧
    (∀ v : Value, v.value_type ≠ .i64 → v.value_type ≠ .u64 →
      v.as_i64 = none ∧ v.as_u64 = none) := by
  refine ⟨fun i => rfl, fun u _ => ⟨fun h => ?_, fun h => ?_⟩,
      fun u => rfl, fun i _ _ => ⟨fun h => ⟨?_, ?_⟩, fun h => ?_⟩,
      fun v h1 h2 => ?_⟩
  · simp only [Value.as_i64]
    rw [if_pos (by omega)]
  · simp only [Value.as_i64]
    rw [if_neg (by omega)]
  · simp [Value.as_u64, h]
  · exact Int.toNat_of_nonneg h
  · simp [Value.as_u64]
    omega
  · cases v with
    | static s => cases s <;> simp_all [Value.value_type, StaticNode.value_type,
        Value.as_i64, Value.as_u64]
    | string s => exact ⟨rfl, rfl⟩
    | array a => exact ⟨rfl, rfl⟩
    | object o => exact ⟨rfl, rfl⟩

/-- Closed witness for the cross-representation widening theorem. -/
theorem as_i64_as_u64_cross_widening_witness :
    Value.as_i64 (.static (.u64 3)) = some (Int.ofNat 3) ∧
    Value.as_u64 (.static (.i64 (-1))) = none ∧
    Value.as_i64 (.string (.borrowed "x")) = none := by
  refine ⟨(as_i64_as_u64_cross_widening.2.1 3 (by decide)).1 (by decide),
    ((as_i64_as_u64_cross_widening.2.2.2.1 (-1) (by decide) (by decide)).2
      (by decide)),
    (as_i64_as_u64_cross_widening.2.2.2.2 (.string (.borrowed "x"))
      (by decide) (by decide)).1⟩

/-- C7: as_f64 succeeds exactly on an F64 leaf, returning the stored
float; cast_f64 succeeds on F64, I64 and U64 leaves, converting integer
leaves with the int-to-float cast, and is absent on every non-numeric
variant. -/
theorem as_f64_cast_f64_contract (i64ToF64 : Int → UInt64)
    (u64ToF64 : Nat → UInt64) :
    (∀ f : UInt64, Value.as_f64 (.static (.f64 f)) = some f) ∧
    (∀ v : Value, v.value_type ≠ .f64 → v.as_f64 = none) ∧
    (∀ f : UInt64,
      Value.cast_f64 i64ToF64 u64ToF64 (.static (.f64 f)) = some f) ∧
    (∀ i : Int,
      Value.cast_f64 i64ToF64 u64ToF64 (.static (.i64 i)) = some (i64ToF64 i)) ∧
    (∀ u : Nat,
      Value.cast_f64 i64ToF64 u64ToF64 (.static (.u64 u)) = some (u64ToF64 u)) ∧
    (∀ v : Value, v.value_type ≠ .f64 → v.value_type ≠ .i64 →
      v.value_type ≠ .u64 → Value.cast_f64 i64ToF64 u64ToF64 v = none) := by
  refine ⟨fun f => rfl, fun v h => ?_, fun f => rfl, fun i => rfl,
      fun u => rfl, fun v h1 h2 h3 => ?_⟩
  · cases v with
    | static s => cases s <;> simp_all [Value.value_type, StaticNode.value_type,
        Value.as_f64]
    | string s => rfl
    | array a => rfl
    | object o => rfl
  · cases v with
    | static s => cases s <;> simp_all [Value.value_type, StaticNode.value_type,
        Value.cast_f64]
    | string s => rfl
    | array a => rfl
    | object o => rfl

/-- Closed witness for the float accessor contract, with the identity
and zero maps standing in for the abstract casts. -/
theorem as_f64_cast_f64_contract_witness :
    Value.as_f64 (.static (.bool true)) = none ∧
    Value.cast_f64 (fun _ => 0) (fun _ => 0) (.static .null) = none := by
  exact ⟨(as_f64_cast_f64_contract (fun _ => 0) (fun _ => 0)).2.1
      (.static (.bool true)) (by decide),
    (as_f64_cast_f64_contract (fun _ => 0) (fun _ => 0)).2.2.2.2.2
      (.static .null) (by decide) (by decide) (by decide)⟩

/-- C10: for every Value the typed accessors agree with value_type:
as_str succeeds iff the kind is String, as_array iff Array, as_object
iff Object, as_bool iff Bool, as_f64 iff F64, and is_null holds iff the
kind is Null. -/
theorem accessors_agree_with_value_type (v : Value) :
    (v.as_str.isSome ↔ v.value_type = .string) ∧
    (v.as_array.isSome ↔ v.value_type = .array) ∧
    (v.as_object.isSome ↔ v.value_type = .object) ∧
    (v.as_bool.isSome ↔ v.value_type = .bool) ∧
    (v.as_f64.isSome ↔ v.value_type = .f64) ∧
    (v.is_null = true ↔ v.value_type = .null) := by
  cases v with
  | static s => cases s <;> simp [Value.value_type, StaticNode.value_type,
      Value.as_str, Value.as_array, Value.as_object, Value.as_bool,
      Value.as_f64, Value.is_null]
  | string s => simp [Value.value_type, Value.as_str, Value.as_array,
      Value.as_object, Value.as_bool, Value.as_f64, Value.is_null]
  | array a => simp [Value.value_type, Value.as_str, Value.as_array,
      Value.as_object, Value.as_bool, Value.as_f64, Value.is_null]
  | object o => simp [Value.value_type, Value.as_str, Value.as_array,
      Value.as_object, Value.as_bool, Value.as_f64, Value.is_null]

end Borrowed
